import Mathlib

/-!
Shallow embedding of `src/main.py` of WinEventsOrganizer: the record
splitter, record decoder, message-detail extractor, filter predicate,
ingestion pipeline and enrichment stage, together with theorems checking
the specification's claims about them.

Python strings are modelled as Lean `String` (lists of characters); the
fixed regular expressions of the source are translated into explicit
character-list scanners with the same matching semantics (leftmost match,
greedy quantifiers with backtracking).  Python dicts holding events are
modelled as association lists `List (String × String)` with first-match
lookup and replace-first-or-append update, mirroring insertion-order
semantics.  The external network lookup of the enrichment stage is
modelled as an oracle `Nat → Option String` indexed by the number of
lookup calls already made; `none` models an unavailable lookup.
-/

namespace WinEvents

/-! ## Character and string helpers (Python `str` operations, ASCII scope) -/

/-- The characters matched by the regex class `\s` and stripped by
`str.strip()` (restricted to the ASCII range, which covers all inputs
relevant here). -/
def isPySpace (c : Char) : Bool :=
  c = ' ' || c = '\t' || c = '\n' || c = '\r' || c = '\x0b' || c = '\x0c'

/-- Carriage return or line feed: the characters excluded by `[^\r\n]`. -/
def crlfChar (c : Char) : Bool :=
  c = '\r' || c = '\n'

/-- Lower-casing of a character as done by `str.lower()` and by
case-insensitive regex matching; covers ASCII plus the two accented
uppercase letters that occur in the Portuguese labels. -/
def lowerChar (c : Char) : Char :=
  if 'A' ≤ c ∧ c ≤ 'Z' then Char.ofNat (c.toNat + 32)
  else if c = 'Ç' then 'ç'
  else if c = 'Ã' then 'ã'
  else c

/-- `str.strip()` on a character list: drop whitespace from both ends. -/
def stripChars (l : List Char) : List Char :=
  ((l.dropWhile isPySpace).reverse.dropWhile isPySpace).reverse

/-- `str.strip()`. -/
def pyStrip (s : String) : String :=
  ⟨stripChars s.data⟩

/-- `str.lower()`. -/
def pyLower (s : String) : String :=
  ⟨s.data.map lowerChar⟩

/-- Substring test on character lists (Python `needle in hay`). -/
def isSubList (needle : List Char) : List Char → Bool
  | [] => needle.isEmpty
  | c :: t => needle.isPrefixOf (c :: t) || isSubList needle t

/-- Python `needle in hay` on strings. -/
def pyContains (needle hay : String) : Bool :=
  needle.data.isEmpty || isSubList needle.data hay.data

/-- Value of a decimal digit character, if it is one. -/
def digitVal (c : Char) : Option Nat :=
  if '0' ≤ c ∧ c ≤ '9' then some (c.toNat - 48) else none

/-- Digit run of Python `int()`, allowing single underscores strictly
between digits (as CPython does). -/
def parseUAux : List Char → Nat → Option Nat
  | [], acc => some acc
  | '_' :: c :: rest, acc =>
    match digitVal c with
    | some d => parseUAux rest (acc * 10 + d)
    | none => none
  | ['_'], _ => none
  | c :: rest, acc =>
    match digitVal c with
    | some d => parseUAux rest (acc * 10 + d)
    | none => none

/-- Nonempty digit run starting a Python integer literal. -/
def parseUDigits : List Char → Option Nat
  | [] => none
  | c :: rest =>
    match digitVal c with
    | some d => parseUAux rest d
    | none => none

/-- Python `int(s)`: surrounding whitespace stripped, optional sign,
decimal digits (ASCII scope).  `none` models a raised `ValueError`. -/
def parseIntPy (s : String) : Option Int :=
  match stripChars s.data with
  | '+' :: r => (parseUDigits r).map Int.ofNat
  | '-' :: r => (parseUDigits r).map fun n => -(n : Int)
  | r => (parseUDigits r).map Int.ofNat

/-! ## Events as association lists (Python dicts) -/

/-- An event row: a Python dict with string keys and values, in insertion
order. -/
abbrev Row := List (String × String)

/-- `dict.get(k)`: value at the first occurrence of key `k`. -/
def dget : Row → String → Option String
  | [], _ => none
  | (k', v) :: t, k => if k' = k then some v else dget t k

/-- `dict.get(k, d)`: lookup with default. -/
def dgetD (r : Row) (k d : String) : String :=
  (dget r k).getD d

/-- `dict[k] = v`: replace the value at an existing key in place, else
append the new pair at the end (insertion-order semantics). -/
def dset : Row → String → String → Row
  | [], k, v => [(k, v)]
  | (k', v') :: t, k, v => if k' = k then (k, v) :: t else (k', v') :: dset t k v

/-- `dict.update(kvs)`: set every pair of `kvs` in order. -/
def updateRow (r : Row) (kvs : List (String × String)) : Row :=
  kvs.foldl (fun a kv => dset a kv.1 kv.2) r

/-! ## Record splitter (`re.split` on the leading-token lookahead, line 96) -/

/-- The closed set of leading tokens that start a new record. -/
def leadingTokens : List String :=
  ["Sucesso da Auditoria", "Falha da Auditoria", "Information", "Warning",
   "Error", "Critical"]

/-- Does the text start with one of the six leading tokens
(case-sensitively, as in the source regex)? -/
def startsWithToken (s : List Char) : Bool :=
  leadingTokens.any fun t => t.data.isPrefixOf s

/-- Scanner for `re.split(r'\r?\n(?=Sucesso da Auditoria|...|Critical)',
content)`: cut at each newline (optionally preceded by a carriage return)
that is followed by a leading token; the matched newline characters are
consumed, the lookahead is not.  A carriage return whose `\r\n` is not a
boundary is pushed onto the current record together with its line feed,
which is exactly what the regex scan does when the lookahead fails. -/
def splitRecAux : List Char → List Char → List (List Char)
  | [], acc => [acc.reverse]
  | '\r' :: '\n' :: t, acc =>
    if startsWithToken t then acc.reverse :: splitRecAux t []
    else splitRecAux t ('\n' :: '\r' :: acc)
  | '\n' :: t, acc =>
    if startsWithToken t then acc.reverse :: splitRecAux t []
    else splitRecAux t ('\n' :: acc)
  | c :: t, acc => splitRecAux t (c :: acc)

/-- The record splitter: the body text split into candidate records. -/
def splitRecords (content : String) : List String :=
  (splitRecAux content.data []).map fun l => ⟨l⟩

/-- Does any of the six leading tokens occur anywhere in the text? -/
def hasTokenOccur : List Char → Bool
  | [] => false
  | c :: t => startsWithToken (c :: t) || hasTokenOccur t

/-! ## Record decoder (`re.match(r'([^,]*),([^,]*),([^,]*),([^,]*),([^,]*),(.*)', record, re.DOTALL)`, lines 105-122) -/

/-- Split off the text before the first comma, together with the rest. -/
def splitComma1 : List Char → Option (List Char × List Char)
  | [] => none
  | c :: t =>
    if c = ',' then some ([], t)
    else
      match splitComma1 t with
      | none => none
      | some (a, b) => some (c :: a, b)

/-- Split off the texts before each of the first `n` commas and the
remainder after the `n`-th comma. -/
def splitN : Nat → List Char → Option (List (List Char) × List Char)
  | 0, s => some ([], s)
  | n + 1, s =>
    (splitComma1 s).bind fun p => (splitN n p.2).map fun q => (p.1 :: q.1, q.2)

/-- The six groups of the decoder's shape-check regex: five comma-free
leading fields and the remainder (group 6, matched with `re.DOTALL`). -/
def decodeParts (r : String) :
    Option (List Char × List Char × List Char × List Char × List Char × List Char) :=
  match splitN 5 r.data with
  | some ([a, b, c, d, e], rest) => some (a, b, c, d, e, rest)
  | _ => none

/-- Message post-processing (lines 112-114): strip whitespace, then strip
one wrapping pair of double quotes if present. -/
def decodeMessage (rest : List Char) : String :=
  let m := stripChars rest
  if m.head? = some '"' ∧ m.getLast? = some '"' then ⟨(m.drop 1).dropLast⟩
  else ⟨m⟩

/-- The record decoder: one candidate record to a structured event row,
or `none` when the shape check fails.  The fifth leading field (the
placeholder, `parts[4]`) is dropped, as in the source. -/
def decodeRecord (r : String) : Option Row :=
  (decodeParts r).map fun p =>
    [("Level", ⟨stripChars p.1⟩),
     ("Timestamp", ⟨stripChars p.2.1⟩),
     ("Provider", ⟨stripChars p.2.2.1⟩),
     ("EventID", ⟨stripChars p.2.2.2.1⟩),
     ("Message", decodeMessage p.2.2.2.2.2)]

/-- Number of commas in a record string. -/
def countCommas (r : String) : Nat :=
  r.data.count ','

/-! ## Filter predicate (lines 124-133) -/

/-- The filter configuration: level names (lower case), numeric ids, and
an optional search term.  Empty list / `none` model absent criteria. -/
structure FilterCfg where
  levels : List String
  ids : List Int
  search : Option String

/-- The filter of lines 125-128, with the `try`/`except` of the
surrounding block: `Except.error ()` models the `ValueError` raised by
`int()` on an unparsable `EventID` (only evaluated when the id filter is
nonempty, by `and` short-circuiting); `Except.ok b` is the final
`add_event` flag. -/
def applyFilters (cfg : FilterCfg) (row : Row) : Except Unit Bool :=
  let a1 : Bool :=
    if !cfg.levels.isEmpty && !(cfg.levels.contains (pyLower (dgetD row "Level" ""))) then
      false
    else true
  let idCheck : Except Unit (Option Int) :=
    if cfg.ids.isEmpty then Except.ok none
    else
      match parseIntPy (dgetD row "EventID" "0") with
      | none => Except.error ()
      | some n => Except.ok (some n)
  match idCheck with
  | Except.error e => Except.error e
  | Except.ok oid =>
    let a2 : Bool :=
      match oid with
      | some n => if !(cfg.ids.contains n) then false else a1
      | none => a1
    let a3 : Bool :=
      match cfg.search with
      | some t =>
        if (t != "") && !(pyContains (pyLower t) (pyLower (dgetD row "Message" ""))) then
          false
        else a2
      | none => a2
    Except.ok a3

/-- Spec-side reading of the level criterion: empty never excludes, else
the lower-cased level must be listed. -/
def levelPass (cfg : FilterCfg) (row : Row) : Bool :=
  cfg.levels.isEmpty || cfg.levels.contains (pyLower (dgetD row "Level" ""))

/-- Spec-side reading of the id criterion: empty never excludes, else the
`EventID` must parse and be listed. -/
def idPass (cfg : FilterCfg) (row : Row) : Bool :=
  cfg.ids.isEmpty ||
    (match parseIntPy (dgetD row "EventID" "0") with
     | some n => cfg.ids.contains n
     | none => false)

/-- Spec-side reading of the search criterion: absent or empty never
excludes, else case-insensitive substring match on the message. -/
def searchPass (cfg : FilterCfg) (row : Row) : Bool :=
  match cfg.search with
  | none => true
  | some t => (t == "") || pyContains (pyLower t) (pyLower (dgetD row "Message" ""))

/-! ## Ingestion pipeline (`read_from_csv`, lines 88-141) -/

/-- The record loop of `read_from_csv` (lines 98-133): skip blank
candidates, stop once `limit` events are collected, decode, filter.  The
first component accumulates accepted events, the second the rows warned
about as malformed (the `except (ValueError, TypeError)` branch, which is
the only diagnostic emitted inside the loop). -/
def processRecordsAux (cfg : FilterCfg) (limit : Nat) :
    List String → List Row → List Row → List Row × List Row
  | [], evs, ws => (evs, ws)
  | r :: rs, evs, ws =>
    if pyStrip r = "" then processRecordsAux cfg limit rs evs ws
    else if limit ≤ evs.length then (evs, ws)
    else
      match decodeRecord r with
      | none => processRecordsAux cfg limit rs evs ws
      | some row =>
        match applyFilters cfg row with
        | Except.error _ => processRecordsAux cfg limit rs evs (ws ++ [row])
        | Except.ok true => processRecordsAux cfg limit rs (evs ++ [row]) ws
        | Except.ok false => processRecordsAux cfg limit rs evs ws

/-- `read_from_csv` on the body text (the part of the file after the
consumed header line): split into candidate records, then run the record
loop.  Returns the accepted events and the warned-about rows. -/
def read_from_csv (content : String) (limit : Nat) (cfg : FilterCfg) :
    List Row × List Row :=
  processRecordsAux cfg limit (splitRecords content) [] []

/-- The per-record outcome ignoring the limit: the event produced by a
candidate record that is non-blank, decodes, and passes the filters. -/
def recOut (cfg : FilterCfg) (r : String) : Option Row :=
  if pyStrip r = "" then none
  else
    match decodeRecord r with
    | none => none
    | some row =>
      match applyFilters cfg row with
      | Except.ok true => some row
      | _ => none

/-- All events a record list would yield with no limit, in record order. -/
def keptRows (cfg : FilterCfg) (rs : List String) : List Row :=
  rs.filterMap (recOut cfg)

/-! ## Field-pattern extractor (`parse_message_details`, lines 17-36)

Each pattern is `(?:label1|label2|...):\s*([^\r\n]+)` — with an extra
`t?\s*` after the colon for the Security ID pattern — searched with
`re.IGNORECASE`.  The scanners below reproduce `re.search` semantics:
leftmost position wins; at a position, the greedy `\s*` (which also
matches newlines) backs off only as far as needed for `[^\r\n]+` to
consume at least one character. -/

/-- The fixed pattern table: semantic field name, its label variants, and
whether the pattern carries the extra `t?` (only Security ID does). -/
def labelTable : List (String × List String × Bool) :=
  [("Security ID", ["Security ID", "ID de segurança", "Identificação de segurança"], true),
   ("Account Name", ["Account Name", "Nome da conta"], false),
   ("Logon ID", ["Logon ID", "ID de Logon", "Identificação de logon"], false),
   ("Process Name", ["Process Name", "Nome do processo"], false),
   ("File Path", ["Object Name", "Nome do objeto"], false),
   ("Logon Type", ["Logon Type", "Tipo de Logon"], false)]

/-- Case-insensitive literal prefix match, returning the rest of the
text after the pattern. -/
def ciPrefixRest : List Char → List Char → Option (List Char)
  | [], s => some s
  | _ :: _, [] => none
  | p :: ps, c :: cs => if lowerChar p = lowerChar c then ciPrefixRest ps cs else none

/-- Try the label variants in alternation order at the current position:
if some `label:` matches case-insensitively, return the text after the
colon. -/
def matchLabelAt (vs : List (List Char)) (s : List Char) : Option (List Char) :=
  vs.findSome? fun u => ciPrefixRest (u ++ [':']) s

/-- Backtracking result of `\s*([^\r\n]+)` on an all-whitespace text:
the greedy `\s*` backs off to just before the last character that is not
a carriage return or line feed, and `[^\r\n]+` captures exactly that one
character (everything after it is `\r`/`\n`); if the text is empty or
consists only of `\r`/`\n`, there is no match. -/
def lastWsCapture (s : List Char) : Option (List Char) :=
  match s.reverse.dropWhile crlfChar with
  | [] => none
  | c :: _ => some [c]

/-- The capture of `\s*([^\r\n]+)` (or `\s*t?\s*([^\r\n]+)` when `sid`)
applied after the matched colon: skip the maximal whitespace run (which
may span line breaks), optionally one literal `t`/`T` for Security ID,
more whitespace, then capture the maximal run free of `\r`/`\n`; back
off as the regex engine does when that leaves nothing to capture. -/
def captureTail (sid : Bool) (s : List Char) : Option (List Char) :=
  let rest := s.dropWhile isPySpace
  match rest with
  | [] => lastWsCapture s
  | c :: rest1 =>
    if sid && (c = 't' || c = 'T') then
      let rest2 := rest1.dropWhile isPySpace
      match rest2 with
      | [] =>
        match lastWsCapture rest1 with
        | some cap => some cap
        | none => some (rest.takeWhile fun ch => !(crlfChar ch))
      | _ :: _ => some (rest2.takeWhile fun ch => !(crlfChar ch))
    else some (rest.takeWhile fun ch => !(crlfChar ch))

/-- `re.search` for one field's pattern: scan positions left to right;
at the first position where a label variant (with its colon) matches and
the tail admits a capture, return that capture. -/
def searchField (vs : List (List Char)) (sid : Bool) : List Char → Option (List Char)
  | [] => none
  | c :: t =>
    match matchLabelAt vs (c :: t) with
    | some rest =>
      match captureTail sid rest with
      | some cap => some cap
      | none => searchField vs sid t
    | none => searchField vs sid t

/-- One probe of the pattern table applied to a message: the captured
group, stripped of surrounding whitespace (`match.group(1).strip()`). -/
def extractField (e : String × List String × Bool) (m : String) : Option String :=
  (searchField (e.2.1.map String.data) e.2.2 m.data).map fun cap => ⟨stripChars cap⟩

/-- `parse_message_details`: apply the six probes in table order to the
same message and collect the successful ones, in insertion order.  An
empty message yields the empty mapping (`if not message: return {}`). -/
def parse_message_details (m : String) : List (String × String) :=
  if m = "" then []
  else (labelTable.map fun e => (e.1, extractField e m)).filterMap fun kv =>
    kv.2.map fun v => (kv.1, v)

/-! ## Enrichment stage (`process_events`, lines 64-86)

The online lookup collaborator is modelled as an oracle
`Nat → Option String` giving the result of the n-th lookup call of the
run (`none` = unavailable, mirroring `lookup_event_id_online` returning
`None`).  The process-wide explanation cache and the sequence of lookup
calls are threaded explicitly. -/

/-- The explanation cache plus the trace of external lookup calls made
so far (each entry is the EventID looked up). -/
structure EnrichState where
  cache : Row
  calls : List String

/-- Python truthiness of an optional string (`None` and `""` are falsy). -/
def truthyOpt : Option String → Bool
  | some s => s != ""
  | none => false

/-- The body of the `for event in events` loop of `process_events`:
copy the event, merge in the parsed message details, then attach an
explanation — from the cache when present, otherwise via an external
lookup whose truthy results populate the cache. -/
def enrichOne (oracle : Nat → Option String) (flag : Bool) (st : EnrichState)
    (event : Row) : EnrichState × Row :=
  let ne := updateRow event (parse_message_details (dgetD event "Message" ""))
  let eid := dget ne "EventID"
  if flag && truthyOpt eid then
    let id := eid.getD ""
    let cached := dget st.cache id
    if truthyOpt cached then (st, dset ne "Explanation" (cached.getD ""))
    else
      let res := oracle st.calls.length
      let cache2 := if truthyOpt res then dset st.cache id (res.getD "") else st.cache
      let expl := if truthyOpt res then res.getD "" else "N/A"
      (⟨cache2, st.calls ++ [id]⟩, dset ne "Explanation" expl)
  else (st, dset ne "Explanation" "N/A")

/-- The event loop of `process_events`, threading the cache state and
producing the processed events in input order. -/
def processEventsAux (oracle : Nat → Option String) (flag : Bool) :
    List Row → EnrichState → List Row × EnrichState
  | [], st => ([], st)
  | e :: es, st =>
    let p := enrichOne oracle flag st e
    let q := processEventsAux oracle flag es p.1
    (p.2 :: q.1, q.2)

/-- `process_events`: the processed events together with the trace of
external lookup calls made during the run. -/
def process_events (oracle : Nat → Option String) (flag : Bool)
    (events : List Row) : List Row × List String :=
  let q := processEventsAux oracle flag events ⟨[], []⟩
  (q.1, q.2.calls)

/-! ## Pipeline lemmas -/

/-- Once the limit is reached, the record loop returns its accumulators
unchanged: no further event is accepted and no further warning emitted. -/
theorem processRecordsAux_stop (cfg : FilterCfg) (limit : Nat) :
    ∀ (rs : List String) (evs ws : List Row), limit ≤ evs.length →
      processRecordsAux cfg limit rs evs ws = (evs, ws) := by
  intro rs
  induction rs with
  | nil => intro evs ws _; rfl
  | cons r rs ih =>
    intro evs ws h
    simp only [processRecordsAux]
    split
    · exact ih evs ws h
    · simp [h]

/-- The events accumulated by the record loop are the initial
accumulator followed by the events of the remaining records, truncated
at the limit. -/
theorem processRecordsAux_eq_take (cfg : FilterCfg) (limit : Nat) :
    ∀ (rs : List String) (evs ws : List Row),
      (processRecordsAux cfg limit rs evs ws).1 =
        evs ++ (keptRows cfg rs).take (limit - evs.length) := by
  intro rs
  induction rs with
  | nil => intro evs ws; simp [processRecordsAux, keptRows]
  | cons r rs ih =>
    intro evs ws
    by_cases hb : pyStrip r = ""
    · have hro : recOut cfg r = none := by simp [recOut, hb]
      simp only [processRecordsAux, if_pos hb, keptRows, List.filterMap_cons, hro]
      simpa [keptRows] using ih evs ws
    · by_cases hl : limit ≤ evs.length
      · have h0 : limit - evs.length = 0 := Nat.sub_eq_zero_of_le hl
        simp [processRecordsAux, hb, hl, h0]
      · cases hd : decodeRecord r with
        | none =>
          have hro : recOut cfg r = none := by simp [recOut, hb, hd]
          simp only [processRecordsAux, if_neg hb, if_neg hl, hd, keptRows,
            List.filterMap_cons, hro]
          simpa [keptRows] using ih evs ws
        | some row =>
          cases hf : applyFilters cfg row with
          | error e =>
            have hro : recOut cfg r = none := by simp [recOut, hb, hd, hf]
            simp only [processRecordsAux, if_neg hb, if_neg hl, hd, hf, keptRows,
              List.filterMap_cons, hro]
            simpa [keptRows] using ih evs (ws ++ [row])
          | ok b =>
            cases b with
            | false =>
              have hro : recOut cfg r = none := by simp [recOut, hb, hd, hf]
              simp only [processRecordsAux, if_neg hb, if_neg hl, hd, hf, keptRows,
                List.filterMap_cons, hro]
              simpa [keptRows] using ih evs ws
            | true =>
              have hro : recOut cfg r = some row := by simp [recOut, hb, hd, hf]
              have hsub : limit - evs.length = (limit - (evs.length + 1)) + 1 := by
                omega
              simp only [processRecordsAux, if_neg hb, if_neg hl, hd, hf, keptRows,
                List.filterMap_cons, hro]
              rw [ih (evs ++ [row]) ws]
              simp [keptRows, hsub, List.take_succ_cons]

/-- The pipeline output is the unlimited record-by-record output,
truncated to the first `limit` events. -/
theorem read_from_csv_eq_take (content : String) (limit : Nat) (cfg : FilterCfg) :
    (read_from_csv content limit cfg).1 =
      (keptRows cfg (splitRecords content)).take limit := by
  simpa using processRecordsAux_eq_take cfg limit (splitRecords content) [] []

/-! ## Splitter lemmas -/

/-- No token occurrence anywhere implies no token prefix. -/
theorem startsWithToken_false_of_no_occur {s : List Char}
    (h : hasTokenOccur s = false) : startsWithToken s = false := by
  cases s with
  | nil => decide
  | cons c t =>
    simp only [hasTokenOccur, Bool.or_eq_false_iff] at h
    exact h.1

/-- No token occurrence is inherited by the tail. -/
theorem hasTokenOccur_tail {c : Char} {t : List Char}
    (h : hasTokenOccur (c :: t) = false) : hasTokenOccur t = false := by
  simp only [hasTokenOccur, Bool.or_eq_false_iff] at h
  exact h.2

/-- When no leading token occurs anywhere in the text, the splitter
never cuts: the whole text becomes a single candidate record. -/
theorem splitRecAux_no_token (s acc : List Char) :
    hasTokenOccur s = false → splitRecAux s acc = [acc.reverse ++ s] := by
  induction s, acc using splitRecAux.induct with
  | case1 acc => intro _; simp [splitRecAux]
  | case2 t acc htok ih =>
    intro h
    have ht : hasTokenOccur t = false := hasTokenOccur_tail (hasTokenOccur_tail h)
    exact absurd htok (by simp [startsWithToken_false_of_no_occur ht])
  | case3 t acc htok ih =>
    intro h
    have ht : hasTokenOccur t = false := hasTokenOccur_tail (hasTokenOccur_tail h)
    rw [show splitRecAux ('\r' :: '\n' :: t) acc =
      splitRecAux t ('\n' :: '\r' :: acc) by simp [splitRecAux, htok]]
    rw [ih ht]
    simp
  | case4 t acc htok ih =>
    intro h
    have ht : hasTokenOccur t = false := hasTokenOccur_tail h
    exact absurd htok (by simp [startsWithToken_false_of_no_occur ht])
  | case5 t acc htok ih =>
    intro h
    have ht : hasTokenOccur t = false := hasTokenOccur_tail h
    rw [show splitRecAux ('\n' :: t) acc =
      splitRecAux t ('\n' :: acc) by simp [splitRecAux, htok]]
    rw [ih ht]
    simp
  | case6 c t acc h1 h2 ih =>
    intro h
    have ht : hasTokenOccur t = false := hasTokenOccur_tail h
    rw [splitRecAux.eq_4 acc c t h1 h2]
    rw [ih ht]
    simp

/-- When no leading token occurs in the body, the record splitter yields
exactly one candidate record: the whole body. -/
theorem splitRecords_no_token (content : String)
    (h : hasTokenOccur content.data = false) :
    splitRecords content = [content] := by
  unfold splitRecords
  rw [splitRecAux_no_token content.data [] h]
  cases content
  rfl

/-! ## Claim C1 -/

/-- Claim C1 (corrected).  The original claim said a marker-free body
yields zero candidate records and an empty event sequence; in fact
`re.split` with no match returns the whole body as one candidate record
(see `claim_C1_cex`), which can decode and be returned as an event.  As
amended: for every body containing no occurrence of any of the six
leading-token markers, the Record Splitter yields exactly one candidate
record — the entire body — and the pipeline returns at most one event,
without error. -/
theorem claim_C1 (content : String) (cfg : FilterCfg) (limit : Nat)
    (h : hasTokenOccur content.data = false) :
    splitRecords content = [content] ∧
      ((read_from_csv content limit cfg).1).length ≤ 1 := by
  refine ⟨splitRecords_no_token content h, ?_⟩
  rw [read_from_csv_eq_take, splitRecords_no_token content h]
  have h1 : (keptRows cfg [content]).length ≤ 1 := by
    simp only [keptRows, List.filterMap_cons]
    cases recOut cfg content <;> simp
  calc ((keptRows cfg [content]).take limit).length
      ≤ (keptRows cfg [content]).length := by
        rw [List.length_take]; exact min_le_right _ _
    _ ≤ 1 := h1

/-- Counterexample to claim C1 as stated: the body `"a,b,c,d,e,f"`
contains no leading-token marker, yet the splitter yields one candidate
record (not zero) and the pipeline returns one event (not an empty
sequence). -/
theorem claim_C1_cex :
    splitRecords "a,b,c,d,e,f" = ["a,b,c,d,e,f"] ∧
      ((read_from_csv "a,b,c,d,e,f" 50 ⟨[], [], none⟩).1).length = 1 := by
  exact ⟨rfl, rfl⟩

/-- Witness for `claim_C1` at a concrete marker-free body. -/
theorem claim_C1_witness :
    splitRecords "x y" = ["x y"] ∧
      ((read_from_csv "x y" 50 ⟨[], [], none⟩).1).length ≤ 1 :=
  claim_C1 "x y" ⟨[], [], none⟩ 50 (by decide)

/-! ## Claim C4 -/

/-- Claim C4 (corrected).  The original claim said a record failing the
shape check is discarded "with a warning/diagnostic"; in fact the
decoder's `if not match: continue` discards it silently — the only
diagnostic in the loop is for `EventID` parse failures during filtering
(see `claim_C4_cex`).  As amended: every candidate record that fails the
shape check is discarded silently, does not appear in the output, adds
no warning, and does not abort processing of subsequent records. -/
theorem claim_C4 (cfg : FilterCfg) (limit : Nat) (r : String)
    (rs : List String) (evs ws : List Row) (h : decodeRecord r = none) :
    processRecordsAux cfg limit (r :: rs) evs ws =
      processRecordsAux cfg limit rs evs ws := by
  simp only [processRecordsAux]
  split
  · rfl
  · by_cases hl : limit ≤ evs.length
    · rw [if_pos hl, processRecordsAux_stop cfg limit rs evs ws hl]
    · rw [if_neg hl, h]

/-- Counterexample to claim C4 as stated: the middle record
`"Error oops"` fails the shape check and is dropped, the following
record is still processed, but the warning list stays empty — no
diagnostic is emitted. -/
theorem claim_C4_cex :
    decodeRecord "Error oops" = none ∧
      read_from_csv "Error,t,p,1,,m1\nError oops\nError,t,p,2,,m2" 50 ⟨[], [], none⟩ =
        ([[("Level", "Error"), ("Timestamp", "t"), ("Provider", "p"),
           ("EventID", "1"), ("Message", "m1")],
          [("Level", "Error"), ("Timestamp", "t"), ("Provider", "p"),
           ("EventID", "2"), ("Message", "m2")]], []) := by
  exact ⟨rfl, rfl⟩

/-- Witness for `claim_C4` at a concrete shape-check failure. -/
theorem claim_C4_witness :
    processRecordsAux ⟨[], [], none⟩ 50 ["Error oops", "Error,t,p,2,,m2"] [] [] =
      processRecordsAux ⟨[], [], none⟩ 50 ["Error,t,p,2,,m2"] [] [] :=
  claim_C4 ⟨[], [], none⟩ 50 "Error oops" ["Error,t,p,2,,m2"] [] [] rfl

/-! ## Claim C5 -/

/-- Claim C5 (confirmed).  For every input body and every positive
`limit`, the pipeline returns at most `limit` events, and the output is
the unlimited record-by-record output truncated at the cap — the loop
stops accepting records once the cap is reached. -/
theorem claim_C5 (content : String) (cfg : FilterCfg) (limit : Nat)
    (_hpos : 0 < limit) :
    ((read_from_csv content limit cfg).1).length ≤ limit ∧
      (read_from_csv content limit cfg).1 =
        (keptRows cfg (splitRecords content)).take limit := by
  refine ⟨?_, read_from_csv_eq_take content limit cfg⟩
  rw [read_from_csv_eq_take]
  exact List.length_take_le _ _

/-- Witness for `claim_C5`: three matching records, limit 2. -/
theorem claim_C5_witness :
    ((read_from_csv "Error,t,p,1,,m1\nError,t,p,2,,m2\nError,t,p,3,,m3" 2
        ⟨[], [], none⟩).1).length ≤ 2 ∧
      (read_from_csv "Error,t,p,1,,m1\nError,t,p,2,,m2\nError,t,p,3,,m3" 2
        ⟨[], [], none⟩).1 =
        (keptRows ⟨[], [], none⟩
          (splitRecords "Error,t,p,1,,m1\nError,t,p,2,,m2\nError,t,p,3,,m3")).take 2 :=
  claim_C5 "Error,t,p,1,,m1\nError,t,p,2,,m2\nError,t,p,3,,m3" ⟨[], [], none⟩ 2
    (by decide)

/-! ## Claim C6 -/

/-- The filter with no criteria accepts every event. -/
theorem applyFilters_empty (row : Row) :
    applyFilters ⟨[], [], none⟩ row = Except.ok true := rfl

/-- When the id criterion is absent or the `EventID` parses, the filter
does not raise and computes the conjunction of the three criteria. -/
theorem applyFilters_and (cfg : FilterCfg) (row : Row)
    (h : cfg.ids = [] ∨ (parseIntPy (dgetD row "EventID" "0")).isSome) :
    applyFilters cfg row =
      Except.ok (levelPass cfg row && idPass cfg row && searchPass cfg row) := by
  unfold applyFilters levelPass idPass searchPass
  cases hids : cfg.ids with
  | nil =>
    simp only [List.isEmpty_nil, if_pos rfl, Bool.true_or]
    cases he : cfg.levels.isEmpty <;>
      cases hc : cfg.levels.contains (pyLower (dgetD row "Level" "")) <;>
        cases hs : cfg.search with
    | _ =>
      first
      | rfl
      | (simp only [Bool.not_true, Bool.not_false, Bool.false_and, Bool.true_and,
          Bool.and_true, Bool.and_false, Bool.false_or, Bool.true_or, if_true, if_false]
         first
         | rfl
         | (rename_i t
            by_cases ht : (t != "") = true <;>
              cases hp : pyContains (pyLower t) (pyLower (dgetD row "Message" "")) <;>
                simp_all))
  | cons i l =>
    have hpe : (parseIntPy (dgetD row "EventID" "0")).isSome := by
      rcases h with h | h
      · rw [hids] at h; cases h
      · exact h
    obtain ⟨n, hn⟩ := Option.isSome_iff_exists.mp hpe
    rw [← hids]
    have hne : cfg.ids.isEmpty = false := by rw [hids]; rfl
    simp only [hne, Bool.false_eq_true, if_false, hn, Bool.false_or]
    cases he : cfg.levels.isEmpty <;>
      cases hc : cfg.levels.contains (pyLower (dgetD row "Level" "")) <;>
        cases hi : cfg.ids.contains n <;>
          cases hs : cfg.search with
    | _ =>
      first
      | rfl
      | (simp only [Bool.not_true, Bool.not_false, Bool.false_and, Bool.true_and,
          Bool.and_true, Bool.and_false, Bool.false_or, Bool.true_or, if_true, if_false]
         first
         | rfl
         | (rename_i t
            by_cases ht : (t != "") = true <;>
              cases hp : pyContains (pyLower t) (pyLower (dgetD row "Message" "")) <;>
                simp_all))

/-- Claim C6 (confirmed).  The three criteria are AND-combined; no
criterion (empty levels and ids, no search) accepts everything; the
output is the record stream filtered in order with no reordering or
deduplication (truncated at the limit); and the concrete example —
levels `{"error"}`, empty ids, no search, against records with levels
Error, Warning, Error — returns exactly the two Error events in input
order. -/
theorem claim_C6 :
    (∀ row : Row, applyFilters ⟨[], [], none⟩ row = Except.ok true) ∧
    (∀ (cfg : FilterCfg) (row : Row),
      cfg.ids = [] ∨ (parseIntPy (dgetD row "EventID" "0")).isSome →
      applyFilters cfg row =
        Except.ok (levelPass cfg row && idPass cfg row && searchPass cfg row)) ∧
    (∀ (content : String) (limit : Nat) (cfg : FilterCfg),
      (read_from_csv content limit cfg).1 =
        (keptRows cfg (splitRecords content)).take limit) ∧
    (read_from_csv "Error,t1,P,1,,m1\nWarning,t2,P,2,,m2\nError,t3,P,3,,m3" 50
        ⟨["error"], [], none⟩).1 =
      [[("Level", "Error"), ("Timestamp", "t1"), ("Provider", "P"),
        ("EventID", "1"), ("Message", "m1")],
       [("Level", "Error"), ("Timestamp", "t3"), ("Provider", "P"),
        ("EventID", "3"), ("Message", "m3")]] := by
  refine ⟨applyFilters_empty, applyFilters_and, ?_, ?_⟩
  · intro content limit cfg
    exact read_from_csv_eq_take content limit cfg
  · rfl

/-- Witness for `claim_C6` (second conjunct, which carries the
hypothesis): empty id filter, arbitrary fixed row. -/
theorem claim_C6_witness :
    applyFilters ⟨["error"], [], some "m"⟩
        [("Level", "Error"), ("Message", "m1")] =
      Except.ok
        (levelPass ⟨["error"], [], some "m"⟩ [("Level", "Error"), ("Message", "m1")] &&
         idPass ⟨["error"], [], some "m"⟩ [("Level", "Error"), ("Message", "m1")] &&
         searchPass ⟨["error"], [], some "m"⟩ [("Level", "Error"), ("Message", "m1")]) :=
  claim_C6.2.1 ⟨["error"], [], some "m"⟩ [("Level", "Error"), ("Message", "m1")]
    (Or.inl rfl)

/-! ## Claim C7 -/

/-- Claim C7 (confirmed).  When the numeric id filter is nonempty and an
event's `EventID` does not parse as an integer, the filter raises (models
`ValueError`), and the record loop drops that event, records it in the
warning list, and continues with the remaining records: no crash, no
silent coercion to zero, and the criterion is not treated as absent. -/
theorem claim_C7 (cfg : FilterCfg) (limit : Nat) (r : String)
    (rs : List String) (evs ws : List Row) (row : Row)
    (hb : ¬ pyStrip r = "") (hl : evs.length < limit)
    (hd : decodeRecord r = some row) (hid : ¬ cfg.ids = [])
    (hp : parseIntPy (dgetD row "EventID" "0") = none) :
    applyFilters cfg row = Except.error () ∧
      processRecordsAux cfg limit (r :: rs) evs ws =
        processRecordsAux cfg limit rs evs (ws ++ [row]) := by
  have hne : cfg.ids.isEmpty = false := by
    cases hids : cfg.ids with
    | nil => exact absurd hids hid
    | cons a l => rfl
  have hf : applyFilters cfg row = Except.error () := by
    simp only [applyFilters, hne, Bool.false_eq_true, if_false, hp]
  refine ⟨hf, ?_⟩
  simp only [processRecordsAux, if_neg hb, if_neg (Nat.not_le_of_lt hl), hd, hf]

/-! ## Decoder lemmas -/

/-- The first-comma split fails exactly on comma-free text. -/
theorem splitComma1_none_iff : ∀ s : List Char, splitComma1 s = none ↔ s.count ',' = 0 := by
  intro s
  induction s with
  | nil => simp [splitComma1]
  | cons c t ih =>
    by_cases hc : c = ','
    · subst hc
      simp [splitComma1, List.count_cons]
    · simp only [splitComma1, if_neg hc]
      cases h : splitComma1 t with
      | none => simp [List.count_cons, hc, ih.mp h]
      | some p =>
        have hne : t.count ',' ≠ 0 := fun h0 => by simp [ih.mpr h0] at h
        simp [List.count_cons, hc, hne]

/-- Structure of a successful first-comma split: the text decomposes at
its first comma, and the prefix is comma-free. -/
theorem splitComma1_some : ∀ (s a r : List Char), splitComma1 s = some (a, r) →
    s = a ++ ',' :: r ∧ ∀ x ∈ a, ¬ x = ',' := by
  intro s
  induction s with
  | nil => intro a r h; simp [splitComma1] at h
  | cons c t ih =>
    intro a r h
    by_cases hc : c = ','
    · subst hc
      simp only [splitComma1, if_pos rfl] at h
      cases h
      simp
    · simp only [splitComma1, if_neg hc] at h
      cases hh : splitComma1 t with
      | none => rw [hh] at h; exact absurd h (by simp)
      | some p =>
        obtain ⟨a', b'⟩ := p
        rw [hh] at h
        cases h
        obtain ⟨ht, hfree⟩ := ih a' _ hh
        constructor
        · rw [ht]; simp
        · intro x hx
          rcases List.mem_cons.mp hx with rfl | hx'
          · exact hc
          · exact hfree x hx'

/-- Splitting a comma-free prefix off explicitly. -/
theorem splitComma1_app (a r : List Char) (ha : ∀ x ∈ a, ¬ x = ',') :
    splitComma1 (a ++ ',' :: r) = some (a, r) := by
  induction a with
  | nil => simp [splitComma1]
  | cons c t ih =>
    have hc : ¬ c = ',' := ha c (by simp)
    have ih' := ih fun x hx => ha x (by simp [hx])
    simp [splitComma1, if_neg hc, ih']

/-- `splitN` succeeds exactly when the text has at least `n` commas. -/
theorem splitN_isSome : ∀ (n : Nat) (s : List Char),
    (splitN n s).isSome ↔ n ≤ s.count ',' := by
  intro n
  induction n with
  | zero => intro s; simp [splitN]
  | succ n ih =>
    intro s
    cases h : splitComma1 s with
    | none =>
      have h0 : s.count ',' = 0 := (splitComma1_none_iff s).mp h
      simp [splitN, h, h0]
    | some p =>
      obtain ⟨a, r⟩ := p
      obtain ⟨hs, hfree⟩ := splitComma1_some s a r h
      have ha0 : a.count ',' = 0 := by
        rw [List.count_eq_zero]
        intro hmem
        exact hfree ',' hmem rfl
      have hcnt : s.count ',' = r.count ',' + 1 := by
        rw [hs]
        simp [List.count_append, List.count_cons, ha0]
      rw [hcnt]
      simp only [splitN, h, Option.some_bind]
      rw [show ((splitN n r).map fun q => (a :: q.1, q.2)).isSome = (splitN n r).isSome by
        cases splitN n r <;> rfl]
      rw [ih r]
      omega

/-- A successful `splitN n` yields exactly `n` leading segments. -/
theorem splitN_length_eq : ∀ (n : Nat) (s : List Char) (segs : List (List Char))
    (rest : List Char), splitN n s = some (segs, rest) → segs.length = n := by
  intro n
  induction n with
  | zero => intro s segs rest h; simp only [splitN, Option.some.injEq, Prod.mk.injEq] at h; simp [← h.1]
  | succ n ih =>
    intro s segs rest h
    simp only [splitN] at h
    cases hc : splitComma1 s with
    | none => rw [hc] at h; simp at h
    | some p =>
      obtain ⟨a, r⟩ := p
      rw [hc] at h
      simp only [Option.some_bind] at h
      cases hh : splitN n r with
      | none => rw [hh] at h; simp at h
      | some q =>
        rw [hh] at h
        simp only [Option.map_some'] at h
        cases h
        simp [ih r q.1 q.2 (by rw [hh])]

/-! ## Claim C2 -/

/-- Claim C2 (confirmed).  Decoding the single record
`Level,Timestamp,Provider,EventID,,"message with, commas\nand a newline"`
produces an event whose `Message` is exactly
`message with, commas\nand a newline`: one wrapping quote pair stripped,
the embedded comma and newline preserved. -/
theorem claim_C2 :
    decodeRecord "Level,Timestamp,Provider,EventID,,\"message with, commas\nand a newline\"" =
      some [("Level", "Level"), ("Timestamp", "Timestamp"),
            ("Provider", "Provider"), ("EventID", "EventID"),
            ("Message", "message with, commas\nand a newline")] := by
  rfl

/-! ## Claim C10 -/

/-- Claim C10 (confirmed).  The decoder's shape check succeeds exactly
when the record contains at least five commas, and on any record built
from five comma-free segments followed by an arbitrary remainder it
yields the event whose leading fields are those segments trimmed (the
fifth, the placeholder, being checked and dropped) with the remainder
processed into the `Message`. -/
theorem claim_C10 :
    (∀ r : String, (decodeParts r).isSome ↔ 5 ≤ countCommas r) ∧
    (∀ a b c d e f : List Char,
      (∀ x ∈ a, ¬ x = ',') → (∀ x ∈ b, ¬ x = ',') → (∀ x ∈ c, ¬ x = ',') →
      (∀ x ∈ d, ¬ x = ',') → (∀ x ∈ e, ¬ x = ',') →
      decodeRecord ⟨a ++ ',' :: b ++ ',' :: c ++ ',' :: d ++ ',' :: e ++ ',' :: f⟩ =
        some [("Level", ⟨stripChars a⟩), ("Timestamp", ⟨stripChars b⟩),
              ("Provider", ⟨stripChars c⟩), ("EventID", ⟨stripChars d⟩),
              ("Message", decodeMessage f)]) := by
  constructor
  · intro r
    unfold decodeParts countCommas
    cases h : splitN 5 r.data with
    | none =>
      have := (splitN_isSome 5 r.data).not.mp (by simp [h])
      simpa using this
    | some p =>
      obtain ⟨segs, rest⟩ := p
      have hlen : segs.length = 5 := splitN_length_eq 5 r.data segs rest h
      have hsome : 5 ≤ r.data.count ',' := (splitN_isSome 5 r.data).mp (by simp [h])
      rcases segs with _ | ⟨a, _ | ⟨b, _ | ⟨c, _ | ⟨d, _ | ⟨e, _ | ⟨g, tl⟩⟩⟩⟩⟩⟩ <;>
        simp_all
  · intro a b c d e f ha hb hc hd he
    have h1 : splitComma1 (a ++ ',' :: (b ++ ',' :: (c ++ ',' :: (d ++ ',' :: (e ++ ',' :: f))))) =
        some (a, b ++ ',' :: (c ++ ',' :: (d ++ ',' :: (e ++ ',' :: f)))) :=
      splitComma1_app _ _ ha
    have h2 := splitComma1_app (r := c ++ ',' :: (d ++ ',' :: (e ++ ',' :: f))) b hb
    have h3 := splitComma1_app (r := d ++ ',' :: (e ++ ',' :: f)) c hc
    have h4 := splitComma1_app (r := e ++ ',' :: f) d hd
    have h5 := splitComma1_app (r := f) e he
    unfold decodeRecord decodeParts
    simp only [splitN, String.data, List.cons_append, List.append_assoc]
    rw [h1]
    simp only [Option.some_bind]
    rw [h2]
    simp only [Option.some_bind]
    rw [h3]
    simp only [Option.some_bind]
    rw [h4]
    simp only [Option.some_bind]
    rw [h5]
    rfl

/-- Witness for `claim_C10`: a concrete five-comma record. -/
theorem claim_C10_witness :
    decodeRecord ⟨"Error".data ++ ',' :: "t".data ++ ',' :: "P".data ++ ',' ::
        "1".data ++ ',' :: "".data ++ ',' :: "msg".data⟩ =
      some [("Level", ⟨stripChars "Error".data⟩), ("Timestamp", ⟨stripChars "t".data⟩),
            ("Provider", ⟨stripChars "P".data⟩), ("EventID", ⟨stripChars "1".data⟩),
            ("Message", decodeMessage "msg".data)] :=
  claim_C10.2 "Error".data "t".data "P".data "1".data "".data "msg".data
    (by decide) (by decide) (by decide) (by decide) (by decide)

/-- Witness for `claim_C7`: id filter `{7}`, record with `EventID`
`"abc"`. -/
theorem claim_C7_witness :
    applyFilters ⟨[], [7], none⟩
        [("Level", "Error"), ("Timestamp", "t"), ("Provider", "p"),
         ("EventID", "abc"), ("Message", "m")] = Except.error () ∧
      processRecordsAux ⟨[], [7], none⟩ 50 ["Error,t,p,abc,,m"] [] [] =
        processRecordsAux ⟨[], [7], none⟩ 50 []
          [] ([] ++ [[("Level", "Error"), ("Timestamp", "t"), ("Provider", "p"),
                      ("EventID", "abc"), ("Message", "m")]]) :=
  claim_C7 ⟨[], [7], none⟩ 50 "Error,t,p,abc,,m" [] [] []
    [("Level", "Error"), ("Timestamp", "t"), ("Provider", "p"),
     ("EventID", "abc"), ("Message", "m")]
    (by decide) (by decide) rfl (by decide) rfl

/-! ## Dict lemmas -/

/-- Setting a key makes it readable. -/
theorem dget_dset_self : ∀ (r : Row) (k v : String), dget (dset r k v) k = some v := by
  intro r k v
  induction r with
  | nil => simp [dset, dget]
  | cons kv t ih =>
    obtain ⟨k', v'⟩ := kv
    by_cases h : k' = k
    · simp [dset, h, dget]
    · simp [dset, h, dget, ih]

/-- Setting one key leaves every other key unchanged. -/
theorem dget_dset_ne : ∀ (r : Row) (k' k v : String), ¬ k' = k →
    dget (dset r k' v) k = dget r k := by
  intro r k' k v h
  induction r with
  | nil => simp [dset, dget, h]
  | cons kv t ih =>
    obtain ⟨k0, v0⟩ := kv
    by_cases h0 : k0 = k'
    · subst h0
      simp [dset, dget, h]
    · simp only [dset, if_neg h0]
      by_cases h1 : k0 = k
      · simp [dget, h1]
      · simp [dget, h1, ih]

/-- An update whose keys avoid `k` leaves `k` unchanged. -/
theorem dget_updateRow_ne : ∀ (kvs : List (String × String)) (r : Row) (k : String),
    (∀ kv ∈ kvs, ¬ kv.1 = k) → dget (updateRow r kvs) k = dget r k := by
  intro kvs
  induction kvs with
  | nil => intro r k _; rfl
  | cons kv rest ih =>
    intro r k h
    have h1 : ¬ kv.1 = k := h kv (by simp)
    have h2 : ∀ x ∈ rest, ¬ x.1 = k := fun x hx => h x (by simp [hx])
    show dget (updateRow (dset r kv.1 kv.2) rest) k = dget r k
    rw [ih (dset r kv.1 kv.2) k h2, dget_dset_ne r kv.1 k kv.2 h1]

/-! ## Extractor key lemmas -/

/-- Keys produced by collecting optional values are keys of the input. -/
theorem mem_collect_keys :
    ∀ (l : List (String × Option String)) (kv : String × String),
      kv ∈ (l.filterMap fun x => x.2.map fun v => (x.1, v)) → kv.1 ∈ l.map Prod.fst := by
  intro l
  induction l with
  | nil => intro kv h; simp at h
  | cons x rest ih =>
    intro kv h
    cases hx : x.2 with
    | none =>
      rw [List.filterMap_cons] at h
      simp only [hx, Option.map_none'] at h
      exact List.mem_cons_of_mem _ (ih kv h)
    | some v =>
      rw [List.filterMap_cons] at h
      simp only [hx, Option.map_some'] at h
      rcases List.mem_cons.mp h with rfl | h'
      · simp
      · exact List.mem_cons_of_mem _ (ih kv h')

/-- Every key produced by the extractor is one of the six extended field
names. -/
theorem parse_message_details_keys (m : String) (kv : String × String)
    (h : kv ∈ parse_message_details m) :
    kv.1 ∈ ["Security ID", "Account Name", "Logon ID", "Process Name",
            "File Path", "Logon Type"] := by
  unfold parse_message_details at h
  by_cases hm : m = ""
  · rw [if_pos hm] at h; simp at h
  · rw [if_neg hm] at h
    have := mem_collect_keys _ kv h
    simpa [labelTable] using this

/-! ## Claim C9 -/

/-- Agreement of the five canonical decoder fields between two rows. -/
def coreAgree (e o : Row) : Prop :=
  dget o "Level" = dget e "Level" ∧ dget o "Timestamp" = dget e "Timestamp" ∧
  dget o "Provider" = dget e "Provider" ∧ dget o "EventID" = dget e "EventID" ∧
  dget o "Message" = dget e "Message"

/-- The enrichment step never changes any of the five canonical fields:
the detail update touches only the six extended keys, and the only other
write is `Explanation`. -/
theorem enrichOne_core (oracle : Nat → Option String) (flag : Bool)
    (st : EnrichState) (event : Row) (k : String)
    (hk : k ∈ ["Level", "Timestamp", "Provider", "EventID", "Message"]) :
    dget (enrichOne oracle flag st event).2 k = dget event k := by
  have hek : ¬ ("Explanation" : String) = k := by
    fin_cases hk <;> decide
  have hdk : ∀ kv ∈ parse_message_details (dgetD event "Message" ""), ¬ kv.1 = k := by
    intro kv hkv heq
    have h6 := parse_message_details_keys _ kv hkv
    rw [heq] at h6
    fin_cases hk <;> simp at h6
  have hbase :
      dget (updateRow event (parse_message_details (dgetD event "Message" ""))) k =
        dget event k :=
    dget_updateRow_ne _ event k hdk
  unfold enrichOne
  dsimp only
  split
  · split
    · rw [dget_dset_ne _ _ _ _ hek, hbase]
    · rw [dget_dset_ne _ _ _ _ hek, hbase]
  · rw [dget_dset_ne _ _ _ _ hek, hbase]

/-- Core-field agreement for the whole event loop, any starting state. -/
theorem processEventsAux_core (oracle : Nat → Option String) (flag : Bool) :
    ∀ (events : List Row) (st : EnrichState),
      List.Forall₂ coreAgree events (processEventsAux oracle flag events st).1 := by
  intro events
  induction events with
  | nil => intro st; simp [processEventsAux]
  | cons e es ih =>
    intro st
    refine List.Forall₂.cons ?_ (ih _)
    exact ⟨enrichOne_core oracle flag st e "Level" (by simp),
           enrichOne_core oracle flag st e "Timestamp" (by simp),
           enrichOne_core oracle flag st e "Provider" (by simp),
           enrichOne_core oracle flag st e "EventID" (by simp),
           enrichOne_core oracle flag st e "Message" (by simp)⟩

/-- Claim C9 (confirmed).  The enrichment/extraction stage is additive
only: for every input event, the corresponding output event of
`process_events` agrees with it on `Level`, `Timestamp`, `Provider`,
`EventID` and `Message`; only extended fields and `Explanation` are
written. -/
theorem claim_C9 (oracle : Nat → Option String) (flag : Bool) (events : List Row) :
    List.Forall₂ coreAgree events (process_events oracle flag events).1 :=
  processEventsAux_core oracle flag events ⟨[], []⟩

/-! ## Claim C8 -/

/-- Invariant of the enrichment state: no EventID has been looked up
twice, and every looked-up EventID has a truthy cached explanation. -/
def cacheInv (st : EnrichState) : Prop :=
  (∀ id : String, st.calls.count id ≤ 1) ∧
  (∀ id : String, id ∈ st.calls → truthyOpt (dget st.cache id) = true)

/-- When every lookup returns a truthy explanation, one enrichment step
preserves the cache invariant. -/
theorem enrichOne_inv (oracle : Nat → Option String) (flag : Bool)
    (st : EnrichState) (event : Row)
    (hor : ∀ n, truthyOpt (oracle n) = true) (h : cacheInv st) :
    cacheInv (enrichOne oracle flag st event).1 := by
  unfold enrichOne
  dsimp only
  split
  · split
    · exact h
    · next hcached =>
      have hres : truthyOpt (oracle st.calls.length) = true := hor _
      have hmem : (dget (updateRow event (parse_message_details (dgetD event "Message" ""))) "EventID").getD "" ∉ st.calls := by
        intro hin
        rw [h.2 _ hin] at hcached
        exact hcached rfl
      constructor
      · intro id
        by_cases hid : id = (dget (updateRow event (parse_message_details (dgetD event "Message" ""))) "EventID").getD ""
        · rw [hid]
          simp [List.count_append, List.count_cons, List.count_eq_zero.mpr hmem]
        · have hid' : ¬ ((dget (updateRow event (parse_message_details (dgetD event "Message" ""))) "EventID").getD "" = id) :=
            fun heq => hid heq.symm
          simp only [List.count_append, List.count_cons, List.count_nil,
            beq_iff_eq, if_neg hid', Nat.zero_add, Nat.add_zero]
          exact h.1 id
      · intro id hin
        rcases List.mem_append.mp hin with hin' | hin'
        · by_cases hid : id = (dget (updateRow event (parse_message_details (dgetD event "Message" ""))) "EventID").getD ""
          · exact absurd (hid ▸ hin') hmem
          · simp only [hres, if_true]
            rw [dget_dset_ne _ _ _ _ fun heq => hid heq.symm]
            exact h.2 id hin'
        · have hid : id = (dget (updateRow event (parse_message_details (dgetD event "Message" ""))) "EventID").getD "" := by
            simpa using hin'
          subst hid
          simp only [hres, if_true]
          rw [dget_dset_self]
          cases hro : oracle st.calls.length with
          | none => rw [hro] at hres; simp [truthyOpt] at hres
          | some s =>
            rw [hro] at hres
            simpa [truthyOpt] using hres
  · exact h

/-- The cache invariant holds after the whole event loop. -/
theorem processEventsAux_inv (oracle : Nat → Option String) (flag : Bool)
    (hor : ∀ n, truthyOpt (oracle n) = true) :
    ∀ (events : List Row) (st : EnrichState), cacheInv st →
      cacheInv (processEventsAux oracle flag events st).2 := by
  intro events
  induction events with
  | nil => intro st h; exact h
  | cons e es ih =>
    intro st h
    exact ih _ (enrichOne_inv oracle flag st e hor h)

/-- Claim C8 (corrected).  The original claim said a repeated EventID
never triggers another lookup even when the first lookup signalled
unavailability; in fact a failed lookup is not cached
(`if explanation: CACHE[...] = explanation`), so the next event with the
same EventID looks it up again (see `claim_C8_cex`).  As amended: when
enrichment is enabled and lookups return (non-empty) explanations, the
external collaborator is invoked at most once per distinct EventID —
after the first successful lookup for an EventID, later events carrying
it never trigger another call; an unavailable lookup is retried on the
next event with that EventID. -/
theorem claim_C8 (oracle : Nat → Option String) (flag : Bool)
    (events : List Row) (hor : ∀ n, truthyOpt (oracle n) = true)
    (id : String) :
    ((process_events oracle flag events).2).count id ≤ 1 := by
  have h0 : cacheInv ⟨[], []⟩ := ⟨fun _ => by simp, fun _ h => by simp at h⟩
  exact (processEventsAux_inv oracle flag hor events ⟨[], []⟩ h0).1 id

/-- Counterexample to claim C8 as stated: two events with `EventID` `"1"`
and an always-unavailable lookup collaborator produce two external
lookup calls, not one. -/
theorem claim_C8_cex :
    (process_events (fun _ => none) true
        [[("EventID", "1")], [("EventID", "1")]]).2 = ["1", "1"] ∧
      ¬ ((process_events (fun _ => none) true
        [[("EventID", "1")], [("EventID", "1")]]).2).count "1" ≤ 1 := by
  exact ⟨rfl, by decide⟩

/-- Witness for `claim_C8` with an always-successful collaborator. -/
theorem claim_C8_witness :
    ((process_events (fun _ => some "expl") true
        [[("EventID", "1")], [("EventID", "1")]]).2).count "1" ≤ 1 :=
  claim_C8 (fun _ => some "expl") true [[("EventID", "1")], [("EventID", "1")]]
    (fun _ => rfl) "1"

/-! ## List scanning lemmas for the extractor -/

/-- Dropping a satisfied prefix twice is the same as once. -/
theorem dropWhile_idem (p : Char → Bool) :
    ∀ l : List Char, (l.dropWhile p).dropWhile p = l.dropWhile p := by
  intro l
  induction l with
  | nil => rfl
  | cons a t ih =>
    by_cases hp : p a
    · simp [List.dropWhile_cons, hp, ih]
    · simp [List.dropWhile_cons, hp]

/-- Members of the dropped-prefix remainder are members of the list. -/
theorem mem_of_mem_dropWhile (p : Char → Bool) :
    ∀ (l : List Char) (c : Char), c ∈ l.dropWhile p → c ∈ l := by
  intro l
  induction l with
  | nil => intro c h; simp at h
  | cons a t ih =>
    intro c h
    by_cases hp : p a
    · rw [List.dropWhile_cons, if_pos hp] at h
      exact List.mem_cons_of_mem _ (ih c h)
    · rw [List.dropWhile_cons, if_neg hp] at h
      exact h

/-- When the first list survives `dropWhile`, appending happens after the
drop. -/
theorem dropWhile_append_of_ne_nil (p : Char → Bool) :
    ∀ (u w : List Char), u.dropWhile p ≠ [] →
      (u ++ w).dropWhile p = u.dropWhile p ++ w := by
  intro u
  induction u with
  | nil => intro w h; exact absurd rfl h
  | cons a t ih =>
    intro w h
    by_cases hp : p a
    · rw [List.dropWhile_cons, if_pos hp] at h
      rw [List.cons_append, List.dropWhile_cons, if_pos hp,
        List.dropWhile_cons, if_pos hp]
      exact ih w h
    · rw [List.cons_append, List.dropWhile_cons, if_neg hp,
        List.dropWhile_cons, if_neg hp, List.cons_append]

/-- A prefix of satisfied characters followed by a failing one is the
whole `takeWhile`. -/
theorem takeWhile_append_of_all (q : Char → Bool) :
    ∀ (u : List Char) (b : Char) (w : List Char),
      (∀ c ∈ u, q c = true) → q b = false →
      (u ++ b :: w).takeWhile q = u := by
  intro u
  induction u with
  | nil => intro b w _ hb; simp [List.takeWhile_cons, hb]
  | cons a t ih =>
    intro b w hu hb
    have ha : q a = true := hu a (by simp)
    rw [List.cons_append, List.takeWhile_cons, ha]
    simp [ih b w (fun c hc => hu c (by simp [hc])) hb]

/-- A list all of whose characters satisfy the predicate is its own
`takeWhile`. -/
theorem takeWhile_eq_self_of_all (q : Char → Bool) :
    ∀ l : List Char, (∀ c ∈ l, q c = true) → l.takeWhile q = l := by
  intro l
  induction l with
  | nil => intro _; rfl
  | cons a t ih =>
    intro h
    rw [List.takeWhile_cons, h a (by simp)]
    simp [ih fun c hc => h c (by simp [hc])]

/-- Stripping after dropping leading whitespace is just stripping. -/
theorem stripChars_dropWhile (l : List Char) :
    stripChars (l.dropWhile isPySpace) = stripChars l := by
  unfold stripChars
  rw [dropWhile_idem]

/-- A non-blank text survives the leading-whitespace drop. -/
theorem dropWhile_ne_nil_of_strip {l : List Char} (h : ¬ stripChars l = []) :
    l.dropWhile isPySpace ≠ [] := by
  intro h0
  exact h (by simp [stripChars, h0])

/-! ## Extractor lemmas -/

/-- No label matches at the end of the text. -/
theorem matchLabelAt_nil (vs : List (List Char)) : matchLabelAt vs [] = none := by
  unfold matchLabelAt
  induction vs with
  | nil => rfl
  | cons u rest ih =>
    have hu : ciPrefixRest (u ++ [':']) [] = none := by
      cases u <;> rfl
    simp only [List.findSome?_cons, hu]
    exact ih

/-- Scanning past positions where no label matches. -/
theorem searchField_append_skip (vs : List (List Char)) (sid : Bool) :
    ∀ (pre rest : List Char),
      (∀ k, k < pre.length → matchLabelAt vs (List.drop k (pre ++ rest)) = none) →
      searchField vs sid (pre ++ rest) = searchField vs sid rest := by
  intro pre
  induction pre with
  | nil => intro rest _; rfl
  | cons c p ih =>
    intro rest h
    have h0 : matchLabelAt vs (c :: (p ++ rest)) = none := by
      have := h 0 (by simp)
      simpa using this
    show searchField vs sid (c :: (p ++ rest)) = _
    simp only [searchField, h0]
    exact ih rest fun k hk => by
      have := h (k + 1) (by simpa using Nat.succ_lt_succ hk)
      simpa using this

/-- The capture of the tail pattern when the matched label's value sits
on one line with non-blank content (and, for Security ID, does not start
with the skippable `t`/`T`): the greedy whitespace run stays inside the
value, and `[^\r\n]+` captures up to the line's end.  The text after the
value — `tail` — is either empty (the value sits on the message's final,
unterminated line) or starts with the terminating `\r`/`\n`. -/
theorem captureTail_line (sid : Bool) (v tail : List Char)
    (hv : ∀ c ∈ v, crlfChar c = false)
    (hne : ¬ stripChars v = [])
    (htail : ∀ c, tail.head? = some c → crlfChar c = true)
    (hsid : sid = true → ∀ c, (v.dropWhile isPySpace).head? = some c →
      ¬ (c = 't' ∨ c = 'T')) :
    captureTail sid (v ++ tail) = some (v.dropWhile isPySpace) := by
  have hw : v.dropWhile isPySpace ≠ [] := dropWhile_ne_nil_of_strip hne
  obtain ⟨c0, w', hw'⟩ : ∃ c0 w', v.dropWhile isPySpace = c0 :: w' := by
    cases hwc : v.dropWhile isPySpace with
    | nil => exact absurd hwc hw
    | cons a b => exact ⟨a, b, rfl⟩
  have h1 : (v ++ tail).dropWhile isPySpace = c0 :: (w' ++ tail) := by
    rw [dropWhile_append_of_ne_nil isPySpace v tail hw, hw']
    simp
  have hsub : ∀ c ∈ c0 :: w', crlfChar c = false := by
    rw [← hw']
    exact fun c hc => hv c (mem_of_mem_dropWhile isPySpace v c hc)
  have htake : ((c0 :: w') ++ tail).takeWhile (fun ch => !(crlfChar ch)) =
      c0 :: w' := by
    cases tail with
    | nil =>
      rw [List.append_nil]
      refine takeWhile_eq_self_of_all _ (c0 :: w') ?_
      intro c hc
      rw [hsub c hc]
      rfl
    | cons b post =>
      refine takeWhile_append_of_all _ (c0 :: w') b post ?_ ?_
      · intro c hc
        rw [hsub c hc]
        rfl
      · rw [htail b rfl]
        rfl
  have hc0head : (v.dropWhile isPySpace).head? = some c0 := by rw [hw']; rfl
  unfold captureTail
  dsimp only
  rw [h1]
  dsimp only
  cases hsidb : sid with
  | false =>
    simp only [Bool.false_and, Bool.false_eq_true, if_false]
    rw [show c0 :: (w' ++ tail) = (c0 :: w') ++ tail by simp]
    rw [htake, hw']
  | true =>
    have hnot := hsid hsidb c0 hc0head
    have hc0 : (c0 = 't' || c0 = 'T') = false := by
      rw [not_or] at hnot
      simp [hnot.1, hnot.2]
    simp only [Bool.true_and, hc0, Bool.false_eq_true, if_false]
    rw [show c0 :: (w' ++ tail) = (c0 :: w') ++ tail by simp]
    rw [htake, hw']

/-- Lookup in the collected optional pairs when the key is absent. -/
theorem dget_collect_none :
    ∀ (l : List (String × Option String)) (k : String),
      k ∉ l.map Prod.fst →
      dget (l.filterMap fun x => x.2.map fun w => (x.1, w)) k = none := by
  intro l
  induction l with
  | nil => intro k _; rfl
  | cons x rest ih =>
    intro k hk
    simp only [List.map_cons, List.mem_cons, not_or] at hk
    rw [List.filterMap_cons]
    cases hx : x.2 with
    | none => exact ih k hk.2
    | some w =>
      simp only [Option.map_some']
      show dget ((x.1, w) :: _) k = none
      rw [dget]
      rw [if_neg fun h => hk.1 h.symm]
      exact ih k hk.2

/-- Lookup in the collected optional pairs: with distinct keys, each key
reads back exactly its optional value. -/
theorem dget_collect :
    ∀ (l : List (String × Option String)) (k : String) (v : Option String),
      (l.map Prod.fst).Nodup → (k, v) ∈ l →
      dget (l.filterMap fun x => x.2.map fun w => (x.1, w)) k = v := by
  intro l
  induction l with
  | nil => intro k v _ hm; simp at hm
  | cons x rest ih =>
    intro k v hnd hm
    have hnd1 : x.1 ∉ rest.map Prod.fst := by
      rw [List.map_cons] at hnd
      exact (List.nodup_cons.mp hnd).1
    have hnd2 : (rest.map Prod.fst).Nodup := by
      rw [List.map_cons] at hnd
      exact (List.nodup_cons.mp hnd).2
    rw [List.filterMap_cons]
    rcases List.mem_cons.mp hm with heq | hmem
    · have hk : x.1 = k := by rw [← heq]
      have hv : x.2 = v := by rw [← heq]
      cases hx : x.2 with
      | none =>
        rw [hx] at hv
        rw [← hv]
        exact dget_collect_none rest k (hk ▸ hnd1)
      | some w =>
        rw [hx] at hv
        simp only [Option.map_some']
        show dget ((x.1, w) :: _) k = v
        rw [dget, if_pos hk, hv]
    · have hkr : k ∈ rest.map Prod.fst :=
        List.mem_map_of_mem Prod.fst hmem
      have hk : ¬ x.1 = k := fun h => hnd1 (h ▸ hkr)
      cases hx : x.2 with
      | none => exact ih k v hnd2 hmem
      | some w =>
        simp only [Option.map_some']
        show dget ((x.1, w) :: _) k = v
        rw [dget, if_neg hk]
        exact ih k v hnd2 hmem

/-- For any table entry, looking its key up in the extractor's output
reads back exactly that entry's probe result. -/
theorem dget_parse (e : String × List String × Bool) (he : e ∈ labelTable)
    (m : String) (hm : ¬ m = "") :
    dget (parse_message_details m) e.1 = extractField e m := by
  unfold parse_message_details
  rw [if_neg hm]
  refine dget_collect _ e.1 (extractField e m) ?_ ?_
  · rw [List.map_map]
    exact (by decide : ((labelTable.map Prod.fst)).Nodup)
  · exact List.mem_map_of_mem _ he

/-! ## Claim C3 -/

/-- Claim C3 (corrected).  The original claim said the extracted value is
always everything after the label up to end-of-line, trimmed; in fact the
Security ID pattern contains an extra `t?` after the colon, so
`"Security ID: test"` extracts `"est"` (see `claim_C3_cex`), the match
requires a colon and at least one following non-`\r\n` character, and the
skipped whitespace may span line breaks.  As amended: for each of the six
fields, when the first position where the field's pattern fully matches
is a label variant (case-insensitively) followed by a colon whose
same-line remainder has non-blank trimmed content (and, for Security ID,
does not start — after whitespace — with a literal `t`/`T`, which the
pattern would additionally skip), the extracted value is everything after
the label's colon up to the end of that line, trimmed of surrounding
whitespace.  The line may be terminated by `\r`/`\n` or be the message's
final, unterminated line (`tail` empty). -/
theorem claim_C3 (e : String × List String × Bool) (he : e ∈ labelTable)
    (pre lrest v tail : List Char)
    (hskip : ∀ k, k < pre.length →
      matchLabelAt (e.2.1.map String.data) (List.drop k (pre ++ lrest)) = none)
    (hmatch : matchLabelAt (e.2.1.map String.data) lrest = some (v ++ tail))
    (hv : ∀ c ∈ v, crlfChar c = false)
    (hne : ¬ stripChars v = [])
    (htail : ∀ c, tail.head? = some c → crlfChar c = true)
    (hsid : e.2.2 = true → ∀ c, (v.dropWhile isPySpace).head? = some c →
      ¬ (c = 't' ∨ c = 'T')) :
    dget (parse_message_details ⟨pre ++ lrest⟩) e.1 = some ⟨stripChars v⟩ := by
  have hlne : lrest ≠ [] := by
    intro h0
    rw [h0, matchLabelAt_nil] at hmatch
    cases hmatch
  have hm : ¬ (⟨pre ++ lrest⟩ : String) = "" := by
    intro h0
    have hdata : pre ++ lrest = ([] : List Char) := congrArg String.data h0
    exact hlne (List.append_eq_nil.mp hdata).2
  rw [dget_parse e he _ hm]
  unfold extractField
  rw [show (⟨pre ++ lrest⟩ : String).data = pre ++ lrest from rfl]
  rw [searchField_append_skip _ _ pre lrest hskip]
  cases hl : lrest with
  | nil => exact absurd hl hlne
  | cons c t =>
    rw [hl] at hmatch
    simp only [searchField, hmatch]
    rw [captureTail_line e.2.2 v tail hv hne htail hsid]
    simp only [Option.map_some', Option.some.injEq]
    rw [stripChars_dropWhile]

/-- Counterexample to claim C3 as stated: for the message
`"Security ID: test"`, the extracted Security ID is `"est"` — the
pattern's `t?` swallows the leading `t` — not the trimmed rest of the
line (`"test"`), nor everything after the bare label (`": test"`). -/
theorem claim_C3_cex :
    parse_message_details "Security ID: test" = [("Security ID", "est")] ∧
      ¬ ("est" : String) = "test" ∧ ¬ ("est" : String) = ": test" := by
  exact ⟨rfl, by decide, by decide⟩

/-- Witness for `claim_C3`: the Account Name probe with the value on the
message's final, unterminated line (empty tail). -/
theorem claim_C3_witness :
    dget (parse_message_details ⟨[] ++ "Account Name: jdoe".data⟩)
      "Account Name" = some "jdoe" := by
  have h := claim_C3 ("Account Name", ["Account Name", "Nome da conta"], false)
    (by decide) [] "Account Name: jdoe".data " jdoe".data []
    (fun k hk => absurd hk (by simp))
    (by decide) (by decide) (by decide)
    (fun c hc => by simp at hc)
    (fun hf => absurd hf (by decide))
  exact h

end WinEvents
